import Mathlib

/-!
Verification of the score-combination engine of `cam/sgnmt/decoding/combination.py`.

A predictor's contribution at one decoding step is a pair `(log_prob, weight)`;
a step breakdown is the list of those pairs over the active predictors; a score
history is the list of step breakdowns.  Python floats are embedded as real
numbers; Python code that can raise (`IndexError` from `alphas[k]`,
`ZeroDivisionError` from `score / len(...)`) is embedded with `Option`, a
`none` result standing for the raised exception.  A strategy that can mutate
its `score_breakdown` argument is embedded as a state transformer returning
the score together with the post-call breakdown.
-/

noncomputable section

abbrev Step : Type := List (ℝ × ℝ)

abbrev Breakdown : Type := List Step

/-- Modelled from the spec: `utils.NEG_INF`, the "impossible" sentinel score
(IEEE negative infinity); its definition is not among the given sources.  In
this real-number embedding it is represented by a distinguished constant that
the engine uses only in equality guards, exactly as the source compares
`working_score == utils.NEG_INF`. -/
def NEG_INF : ℝ := -(2 ^ 64)

/-- Modelled from the spec: `utils.log_sum`, the shared stable log-sum-exp
primitive, `logsumexp(xs) = max(xs) + log(sum(exp(xi - max(xs))))`; its
definition is not among the given sources.  Over the reals the stable form
equals `log (sum (exp xi))` for a nonempty argument, which is the form used
here; the empty case (negative infinity) is not representable in `ℝ`, and
every application below has a nonempty, finite argument. -/
def log_sum (xs : List ℝ) : ℝ :=
  Real.log ((xs.map Real.exp).sum)

/-- Modelled from the spec: `Decoder.combi_arithmetic_unnormalized`, the
per-step reduction used by the length-normalization scheme; its definition is
not among the given sources.  The spec describes it as the unweighted sum of
the predictors' raw log-probabilities, ignoring the `weight` fields. -/
def combi_arithmetic_unnormalized (s : Step) : ℝ :=
  (s.map Prod.fst).sum

/-- Embeds `breakdown2score_sum` (combination.py, lines 15-32): always returns
`working_score` and never touches the breakdown. -/
def breakdown2score_sum (working_score : ℝ) (score_breakdown : Breakdown)
    (_full : Bool) : ℝ × Breakdown :=
  (working_score, score_breakdown)

/-- Embeds `breakdown2score_length_norm` (combination.py, lines 35-56): sums
`combi_arithmetic_unnormalized` over the steps and divides by the number of
steps.  The division raises `ZeroDivisionError` in the source when the
breakdown is empty; that exception is embedded as `none`. -/
def breakdown2score_length_norm (_working_score : ℝ)
    (score_breakdown : Breakdown) (_full : Bool) : Option (ℝ × Breakdown) :=
  if score_breakdown = [] then none
  else
    some ((score_breakdown.map combi_arithmetic_unnormalized).sum /
            score_breakdown.length,
          score_breakdown)

/-- Embeds the loop body `for k, (p, w) in enumerate(pos): alphas[k] += p`
(combination.py, lines 92-93 and 111-112): each entry of `alphas` indexed by a
position of `pos` gains that predictor's log-probability, the rest stay; a
`pos` longer than `alphas` raises `IndexError`, embedded as `none`. -/
def updateAlphas (alphas : List ℝ) (pos : Step) : Option (List ℝ) :=
  if pos.length ≤ alphas.length then
    some (List.zipWith (fun a pr => a + pr.1) alphas pos ++
            alphas.drop pos.length)
  else none

/-- Embeds one iteration of the `full=True` loop of `breakdown2score_bayesian`
(combination.py, lines 91-97): update the alphas with the current position,
normalize by their log-sum, and append the position's combined score to the
accumulator.  The state is the pair `(alphas, acc)`. -/
def bayesFullStep (st : List ℝ × List ℝ) (pos : Step) :
    Option (List ℝ × List ℝ) :=
  match updateAlphas st.1 pos with
  | none => none
  | some alphas =>
    if pos.length ≤ alphas.length then
      some (alphas,
            st.2 ++ [log_sum (List.zipWith
              (fun a pr => a - log_sum alphas + pr.1) alphas pos)])
    else none

/-- Embeds the incremental path of `breakdown2score_bayesian` for histories
of at least two steps (combination.py, lines 103-120): read the priors from
the first step, subtract the statically weighted contribution of the last
step from the working score, reaccumulate the alphas over all but the last
step, and recombine the last step with the normalized alphas, replacing the
last step's weights with the exponentiated normalized alphas. -/
def bayesInc (working_score : ℝ) (score_breakdown : Breakdown) :
    Option (ℝ × Breakdown) :=
  let priors : List ℝ := score_breakdown.headI.map fun pr => pr.2
  let lastStep : Step := score_breakdown.getLastD []
  let last_score : ℝ :=
    (List.zipWith (fun q pr => q * pr.1) priors lastStep).sum
  match score_breakdown.dropLast.foldlM updateAlphas (priors.map Real.log) with
  | none => none
  | some alphas =>
    if lastStep.length ≤ alphas.length then
      some (working_score - last_score +
              log_sum (List.zipWith
                (fun a pr => a - log_sum alphas + pr.1) alphas lastStep),
            score_breakdown.dropLast ++
              [List.zipWith
                (fun a pr => (pr.1, Real.exp (a - log_sum alphas)))
                alphas lastStep])
    else none

/-- Embeds `breakdown2score_bayesian` (combination.py, lines 59-120).  The
result pairs the returned score with the post-call breakdown: only the
incremental path with at least two steps replaces the last step (line 118);
every other path leaves the breakdown as given.  `IndexError` from misaligned
predictor counts is embedded as `none`. -/
def breakdown2score_bayesian (working_score : ℝ) (score_breakdown : Breakdown)
    (full : Bool) : Option (ℝ × Breakdown) :=
  match score_breakdown with
  | [] => some (working_score, score_breakdown)
  | s0 :: rest =>
    if working_score = NEG_INF then some (working_score, s0 :: rest)
    else if full then
      match (s0 :: rest).foldlM bayesFullStep
          (s0.map fun pr => Real.log pr.2, ([] : List ℝ)) with
      | none => none
      | some st => some (st.2.sum, s0 :: rest)
    else
      match rest with
      | [] =>
        some (log_sum (s0.map fun pr => Real.log pr.2 + pr.1), [s0])
      | s1 :: rest2 =>
        bayesInc working_score (s0 :: s1 :: rest2)

/-- Embeds one iteration of the position loop of
`breakdown2score_bayesian_loglin` (combination.py, lines 136-145): from the
previous alphas build the new alphas and the per-predictor accumulator, and
append `log_sum sub_acc - log_sum alphas` to the score accumulator.  The state
is the pair `(prev_alphas, acc)`; a position longer than `prev_alphas` raises
`IndexError`, embedded as `none`. -/
def loglinStep (st : List ℝ × List ℝ) (pos : Step) :
    Option (List ℝ × List ℝ) :=
  if pos.length ≤ st.1.length then
    some (List.zipWith (fun pr a => a + pr.1) pos st.1,
          st.2 ++ [log_sum (List.zipWith (fun pr a => pr.1 + (a + pr.1))
                      pos st.1) -
                   log_sum (List.zipWith (fun pr a => a + pr.1) pos st.1)])
  else none

/-- Embeds `breakdown2score_bayesian_loglin` (combination.py, lines 123-146):
full recomputation only, seeded from the first step's weights; the breakdown
is never mutated and `full` is never read. -/
def breakdown2score_bayesian_loglin (working_score : ℝ)
    (score_breakdown : Breakdown) (_full : Bool) : Option (ℝ × Breakdown) :=
  match score_breakdown with
  | [] => some (working_score, score_breakdown)
  | s0 :: rest =>
    match (s0 :: rest).foldlM loglinStep
        (s0.map fun pr => Real.log pr.2, ([] : List ℝ)) with
    | none => none
    | some st => some (st.2.sum, s0 :: rest)

/-- The caller protocol of the Bayesian-Linear incremental mode, read off the
spec's prefix-consistency law: process the remaining steps one at a time; for
each newly appended step, add the static-prior naive contribution
`sum_k priors[k] * logprob[k]` to the working score and then call
`breakdown2score_bayesian` with `full = False` on the prefix built so far,
carrying the returned score and the returned (possibly mutated) breakdown
forward. -/
def incChainGo : ℝ → Breakdown → Breakdown → Option (ℝ × Breakdown)
  | w, done, [] => some (w, done)
  | w, done, pos :: rest =>
    let cur : Breakdown := done ++ [pos]
    let priors : List ℝ := cur.headI.map fun pr => pr.2
    let wplus : ℝ := w + (List.zipWith (fun q pr => q * pr.1) priors pos).sum
    match breakdown2score_bayesian wplus cur false with
    | none => none
    | some st => incChainGo st.1 st.2 rest

/-- Runs the incremental caller protocol over all prefixes `H[:1] ... H[:T]`
of a history, starting from the working score `0` of the empty hypothesis. -/
def incChain (history : Breakdown) : Option (ℝ × Breakdown) :=
  incChainGo 0 [] history

/-- A history over a single predictor of prior weight `1`, one step per given
log-probability. -/
def onePredHist (ps : List ℝ) : Breakdown :=
  ps.map fun p => [(p, 1)]

end

/-! ### Basic evaluation lemmas -/

theorem log_sum_singleton (x : ℝ) : log_sum [x] = x := by
  simp [log_sum]

theorem bayesian_nil (w : ℝ) (full : Bool) :
    breakdown2score_bayesian w [] full = some (w, []) := rfl

theorem bayesian_cons (w : ℝ) (s0 : Step) (rest : Breakdown) (full : Bool) :
    breakdown2score_bayesian w (s0 :: rest) full =
      if w = NEG_INF then some (w, s0 :: rest)
      else if full then
        match List.foldlM bayesFullStep
            (s0.map fun pr => Real.log pr.2, ([] : List ℝ)) (s0 :: rest) with
        | none => none
        | some st => some (st.2.sum, s0 :: rest)
      else
        match rest with
        | [] => some (log_sum (s0.map fun pr => Real.log pr.2 + pr.1), [s0])
        | s1 :: rest2 => bayesInc w (s0 :: s1 :: rest2) := rfl

theorem loglin_cons (w : ℝ) (s0 : Step) (rest : Breakdown) (full : Bool) :
    breakdown2score_bayesian_loglin w (s0 :: rest) full =
      match List.foldlM loglinStep
          (s0.map fun pr => Real.log pr.2, ([] : List ℝ)) (s0 :: rest) with
      | none => none
      | some st => some (st.2.sum, s0 :: rest) := rfl

theorem bayesian_neg_inf (bd : Breakdown) (full : Bool) :
    breakdown2score_bayesian NEG_INF bd full = some (NEG_INF, bd) := by
  cases bd with
  | nil => rfl
  | cons s0 rest => simp [breakdown2score_bayesian]

theorem length_norm_cons (w : ℝ) (full : Bool) (s0 : Step) (rest : Breakdown) :
    breakdown2score_length_norm w (s0 :: rest) full =
      some (((s0 :: rest).map combi_arithmetic_unnormalized).sum /
              (s0 :: rest).length, s0 :: rest) := by
  unfold breakdown2score_length_norm
  rw [if_neg (by simp)]

theorem bayesian_inc_one (w : ℝ) (s0 : Step) (hw : w ≠ NEG_INF) :
    breakdown2score_bayesian w [s0] false =
      some (log_sum (s0.map fun pr => Real.log pr.2 + pr.1), [s0]) := by
  simp [breakdown2score_bayesian, hw]

theorem bayesian_inc_ge2 (w : ℝ) (s0 s1 : Step) (rest2 : Breakdown)
    (hw : w ≠ NEG_INF) :
    breakdown2score_bayesian w (s0 :: s1 :: rest2) false =
      bayesInc w (s0 :: s1 :: rest2) := by
  simp [breakdown2score_bayesian, hw]

/-! ### Arithmetic helper lemmas for the normalized alphas -/

theorem sum_map_exp_pos (l : List ℝ) (h : l ≠ []) :
    0 < (l.map Real.exp).sum := by
  cases l with
  | nil => exact absurd rfl h
  | cons a rest =>
    have h1 : (0 : ℝ) ≤ (rest.map Real.exp).sum := by
      apply List.sum_nonneg
      intro x hx
      obtain ⟨y, _, rfl⟩ := List.mem_map.mp hx
      exact (Real.exp_pos y).le
    simpa using add_pos_of_pos_of_nonneg (Real.exp_pos a) h1

theorem sum_map_exp_sub (l : List ℝ) (c : ℝ) :
    (l.map fun a => Real.exp (a - c)).sum = (l.map Real.exp).sum / Real.exp c := by
  induction l with
  | nil => simp
  | cons a rest ih =>
    rw [List.map_cons, List.sum_cons, ih, Real.exp_sub, List.map_cons,
      List.sum_cons, add_div]

theorem sum_exp_normalized (alphas : List ℝ) (h : alphas ≠ []) :
    (alphas.map fun a => Real.exp (a - log_sum alphas)).sum = 1 := by
  rw [sum_map_exp_sub, log_sum,
    Real.exp_log (sum_map_exp_pos alphas h),
    div_self (ne_of_gt (sum_map_exp_pos alphas h))]

/-! ### Lemmas about the alpha-update loop -/

theorem updateAlphas_eq (alphas : List ℝ) (pos : Step)
    (h : pos.length ≤ alphas.length) :
    updateAlphas alphas pos =
      some (List.zipWith (fun a pr => a + pr.1) alphas pos ++
              alphas.drop pos.length) := by
  simp [updateAlphas, h]

theorem foldlM_updateAlphas_ok (steps : Breakdown) :
    ∀ alphas : List ℝ, (∀ s ∈ steps, s.length ≤ alphas.length) →
      ∃ out, steps.foldlM updateAlphas alphas = some out ∧
        out.length = alphas.length := by
  induction steps with
  | nil =>
    intro alphas _
    exact ⟨alphas, rfl, rfl⟩
  | cons s ss ih =>
    intro alphas hs
    have h1 : s.length ≤ alphas.length := hs s (by simp)
    have hupd := updateAlphas_eq alphas s h1
    have hlen1 : (List.zipWith (fun a pr => a + pr.1) alphas s ++
        alphas.drop s.length).length = alphas.length := by
      simp
      omega
    obtain ⟨out, hfold, hlen⟩ := ih _ (by
      intro t ht
      rw [hlen1]
      exact hs t (by simp [ht]))
    refine ⟨out, ?_, by rw [hlen, hlen1]⟩
    rw [List.foldlM_cons, hupd]
    simpa using hfold

/-! ### Shape lemmas for the rewritten last step -/

theorem zipWith_pair_fst (c : ℝ) :
    ∀ (l : Step) (alphas : List ℝ), l.length ≤ alphas.length →
      (List.zipWith (fun a pr => (pr.1, Real.exp (a - c))) alphas l).map
          Prod.fst = l.map Prod.fst := by
  intro l
  induction l with
  | nil =>
    intro alphas _
    simp
  | cons pr l ih =>
    intro alphas h
    cases alphas with
    | nil => exact absurd h (by simp)
    | cons a as => simpa using ih as (by simpa using h)

theorem zipWith_pair_snd (c : ℝ) :
    ∀ (alphas : List ℝ) (l : Step), alphas.length ≤ l.length →
      (List.zipWith (fun a pr => (pr.1, Real.exp (a - c))) alphas l).map
          Prod.snd = alphas.map fun a => Real.exp (a - c) := by
  intro alphas
  induction alphas with
  | nil =>
    intro l _
    simp
  | cons a as ih =>
    intro l h
    cases l with
    | nil => exact absurd h (by simp)
    | cons pr l' => simpa using ih l' (by simpa using h)

theorem dropLast_concat_eq (l : Breakdown) (x : Step) :
    (l ++ [x]).dropLast = l := by
  simp

/-- Evaluates the incremental path on a breakdown written as a nonempty
prefix followed by its last step. -/
theorem bayesInc_concat (w : ℝ) (l : Breakdown) (lastS : Step) (hl : l ≠ []) :
    bayesInc w (l ++ [lastS]) =
      match l.foldlM updateAlphas
          ((l.headI.map fun pr => pr.2).map Real.log) with
      | none => none
      | some alphas =>
        if lastS.length ≤ alphas.length then
          some (w - (List.zipWith (fun q pr => q * pr.1)
                  (l.headI.map fun pr => pr.2) lastS).sum +
                log_sum (List.zipWith (fun a pr => a - log_sum alphas + pr.1)
                  alphas lastS),
                l ++ [List.zipWith
                  (fun a pr => (pr.1, Real.exp (a - log_sum alphas)))
                  alphas lastS])
        else none := by
  cases l with
  | nil => exact absurd rfl hl
  | cons s0 ls =>
    have hdl : (s0 :: ls ++ [lastS]).dropLast = s0 :: ls := by
      rw [List.dropLast_append_of_ne_nil] <;> simp
    have hgl : List.getLastD (s0 :: ls ++ [lastS]) [] = lastS := by
      rw [List.getLastD_eq_getLast?, List.getLast?_concat]
      rfl
    unfold bayesInc
    rw [hdl, hgl]
    rfl

/-! ### Result-shape lemmas: which breakdown comes back from each strategy -/

theorem loglin_shape (w : ℝ) (bd : Breakdown) (full : Bool) (s : ℝ)
    (bd2 : Breakdown)
    (h : breakdown2score_bayesian_loglin w bd full = some (s, bd2)) :
    bd2 = bd := by
  cases bd with
  | nil =>
    simp only [breakdown2score_bayesian_loglin, Option.some.injEq,
      Prod.mk.injEq] at h
    exact h.2.symm
  | cons s0 rest =>
    rw [loglin_cons] at h
    cases hf : List.foldlM loglinStep
        (s0.map fun pr => Real.log pr.2, ([] : List ℝ)) (s0 :: rest) with
    | none =>
      rw [hf] at h
      simp at h
    | some st =>
      rw [hf] at h
      simp only [Option.some.injEq, Prod.mk.injEq] at h
      exact h.2.symm

theorem bayesian_full_shape (w : ℝ) (bd : Breakdown) (s : ℝ)
    (bd2 : Breakdown)
    (h : breakdown2score_bayesian w bd true = some (s, bd2)) :
    bd2 = bd := by
  cases bd with
  | nil =>
    simp only [breakdown2score_bayesian, Option.some.injEq,
      Prod.mk.injEq] at h
    exact h.2.symm
  | cons s0 rest =>
    by_cases hw : w = NEG_INF
    · simp only [breakdown2score_bayesian, hw, if_true, Option.some.injEq,
        Prod.mk.injEq] at h
      exact h.2.symm
    · rw [bayesian_cons, if_neg hw, if_pos rfl] at h
      cases hf : List.foldlM bayesFullStep
          (s0.map fun pr => Real.log pr.2, ([] : List ℝ)) (s0 :: rest) with
      | none =>
        rw [hf] at h
        simp at h
      | some st =>
        rw [hf] at h
        simp only [Option.some.injEq, Prod.mk.injEq] at h
        exact h.2.symm

theorem bayesian_inc_shape (w : ℝ) (bd : Breakdown) (s : ℝ)
    (bd2 : Breakdown)
    (h : breakdown2score_bayesian w bd false = some (s, bd2)) :
    bd2.dropLast = bd.dropLast ∧
      bd2.map (List.map Prod.fst) = bd.map (List.map Prod.fst) := by
  cases bd with
  | nil =>
    simp only [breakdown2score_bayesian, Option.some.injEq,
      Prod.mk.injEq] at h
    rw [← h.2]
    exact ⟨rfl, rfl⟩
  | cons s0 rest =>
    by_cases hw : w = NEG_INF
    · simp only [breakdown2score_bayesian, hw, if_true, Option.some.injEq,
        Prod.mk.injEq] at h
      rw [← h.2]
      exact ⟨rfl, rfl⟩
    · cases rest with
      | nil =>
        rw [bayesian_inc_one w s0 hw] at h
        simp only [Option.some.injEq, Prod.mk.injEq] at h
        rw [← h.2]
        exact ⟨rfl, rfl⟩
      | cons s1 rest2 =>
        rw [bayesian_inc_ge2 w s0 s1 rest2 hw] at h
        have hne : (s0 :: s1 :: rest2 : Breakdown) ≠ [] := by simp
        have hdne : (s0 :: s1 :: rest2 : Breakdown).dropLast ≠ [] := by simp
        have hsp : (s0 :: s1 :: rest2 : Breakdown) =
            (s0 :: s1 :: rest2 : Breakdown).dropLast ++
              [(s0 :: s1 :: rest2 : Breakdown).getLast hne] :=
          (List.dropLast_append_getLast hne).symm
        rw [hsp, bayesInc_concat w _ _ hdne] at h
        cases hf : List.foldlM updateAlphas
            ((((s0 :: s1 :: rest2 : Breakdown).dropLast.headI.map
              fun pr => pr.2).map Real.log))
            (s0 :: s1 :: rest2 : Breakdown).dropLast with
        | none =>
          rw [hf] at h
          simp at h
        | some alphas =>
          simp only [hf] at h
          by_cases hlen : ((s0 :: s1 :: rest2 : Breakdown).getLast hne).length ≤
              alphas.length
          · rw [if_pos hlen] at h
            simp only [Option.some.injEq, Prod.mk.injEq] at h
            rw [← h.2]
            constructor
            · exact dropLast_concat_eq _ _
            · conv_rhs => rw [hsp]
              rw [List.map_append, List.map_append]
              simp only [List.map_cons, List.map_nil]
              rw [zipWith_pair_fst _ _ _ hlen]
          · rw [if_neg hlen] at h
            simp at h

/-! ### C5: frame effects of the five entry points -/

/-- C5: for every input, the sum, length-normalization and log-linear
schemes and the full Bayesian-linear mode hand back the caller's breakdown
unchanged, while the incremental Bayesian-linear mode changes at most the
weight fields of the last step: the list of steps except the last is
preserved, and every log-probability of every step is preserved. -/
theorem c5_frame_effects (w : ℝ) (bd : Breakdown) (full : Bool) (s : ℝ)
    (bd2 : Breakdown) :
    (breakdown2score_sum w bd full = (s, bd2) → bd2 = bd) ∧
    (breakdown2score_length_norm w bd full = some (s, bd2) → bd2 = bd) ∧
    (breakdown2score_bayesian_loglin w bd full = some (s, bd2) → bd2 = bd) ∧
    (breakdown2score_bayesian w bd true = some (s, bd2) → bd2 = bd) ∧
    (breakdown2score_bayesian w bd false = some (s, bd2) →
      bd2.dropLast = bd.dropLast ∧
      bd2.map (List.map Prod.fst) = bd.map (List.map Prod.fst)) := by
  refine ⟨?_, ?_, loglin_shape w bd full s bd2, bayesian_full_shape w bd s bd2,
    bayesian_inc_shape w bd s bd2⟩
  · intro h
    exact (congrArg Prod.snd h).symm
  · intro h
    cases bd with
    | nil => simp [breakdown2score_length_norm] at h
    | cons s0 rest =>
      rw [length_norm_cons] at h
      simp only [Option.some.injEq, Prod.mk.injEq] at h
      exact h.2.symm

/-- Witness for C5: the incremental Bayesian-linear conjunct instantiated at
a concrete two-step history after evaluating the call. -/
theorem c5_frame_effects_witness :
    (([[(0, 1)], [(0, 1)]] : Breakdown).dropLast =
      ([[(0, 1)], [(0, 1)]] : Breakdown).dropLast) ∧
    (([[(0, 1)], [(0, 1)]] : Breakdown).map (List.map Prod.fst) =
      ([[(0, 1)], [(0, 1)]] : Breakdown).map (List.map Prod.fst)) := by
  have heval : breakdown2score_bayesian 3 [[(0, 1)], [(0, 1)]] false =
      some (3, [[(0, 1)], [(0, 1)]]) := by
    norm_num [breakdown2score_bayesian, bayesInc, updateAlphas, log_sum,
      NEG_INF, List.foldlM_cons, List.foldlM_nil]
  exact (c5_frame_effects 3 [[(0, 1)], [(0, 1)]] false 3
    [[(0, 1)], [(0, 1)]]).2.2.2.2 heval

/-! ### Evaluation lemmas for single-predictor histories -/

theorem bayesian_inc_eq_bayesInc (w : ℝ) (bd : Breakdown)
    (hlen : 2 ≤ bd.length) (hw : w ≠ NEG_INF) :
    breakdown2score_bayesian w bd false = bayesInc w bd := by
  rcases bd with _ | ⟨s0, _ | ⟨s1, rest2⟩⟩
  · simp at hlen
  · simp at hlen
  · exact bayesian_inc_ge2 w s0 s1 rest2 hw

theorem incChainGo_cons (w : ℝ) (done : Breakdown) (pos : Step)
    (rest : Breakdown) :
    incChainGo w done (pos :: rest) =
      match breakdown2score_bayesian
          (w + (List.zipWith (fun q pr => q * pr.1)
            ((done ++ [pos]).headI.map fun pr => pr.2) pos).sum)
          (done ++ [pos]) false with
      | none => none
      | some st => incChainGo st.1 st.2 rest := rfl

theorem upd_fold_one (ds : List ℝ) :
    ∀ a : ℝ, List.foldlM updateAlphas [a] (onePredHist ds) =
      some [a + ds.sum] := by
  induction ds with
  | nil =>
    intro a
    simp [onePredHist]
  | cons d ds ih =>
    intro a
    simp only [onePredHist, List.map_cons, List.foldlM_cons, updateAlphas,
      List.length_cons, List.length_nil, List.length_singleton, le_refl,
      if_true, List.zipWith_cons_cons, List.zipWith_nil_right,
      List.zipWith_nil_left, List.drop_succ_cons, List.drop_nil,
      List.append_nil]
    simp only [Option.bind_eq_bind, Option.some_bind]
    have := ih (a + d)
    simp only [onePredHist] at this
    rw [this, add_assoc, List.sum_cons]

theorem bayesFullStep_one (a p : ℝ) (acc : List ℝ) :
    bayesFullStep ([a], acc) [(p, 1)] = some ([a + p], acc ++ [p]) := by
  have e : a + p - (a + p) + p = p := by ring
  simp only [bayesFullStep, updateAlphas, List.length_cons, List.length_nil,
    List.length_singleton, le_refl, if_true, List.zipWith_cons_cons,
    List.zipWith_nil_right, List.zipWith_nil_left, List.drop_succ_cons,
    List.drop_nil, List.append_nil, log_sum_singleton, e]

theorem bayesFull_fold_one (ps : List ℝ) :
    ∀ (a : ℝ) (acc : List ℝ),
      List.foldlM bayesFullStep (([a], acc) : List ℝ × List ℝ)
          (onePredHist ps) =
        some ([a + ps.sum], acc ++ ps) := by
  induction ps with
  | nil =>
    intro a acc
    simp [onePredHist]
  | cons p ps ih =>
    intro a acc
    simp only [onePredHist, List.map_cons, List.foldlM_cons,
      bayesFullStep_one]
    simp only [Option.bind_eq_bind, Option.some_bind]
    have := ih (a + p) (acc ++ [p])
    simp only [onePredHist] at this
    rw [this, add_assoc]
    simp

theorem bayesian_full_onePred (w : ℝ) (ps : List ℝ) (hne : ps ≠ [])
    (hw : w ≠ NEG_INF) :
    breakdown2score_bayesian w (onePredHist ps) true =
      some (ps.sum, onePredHist ps) := by
  rcases ps with _ | ⟨p, ps'⟩
  · exact absurd rfl hne
  · have hmap : onePredHist (p :: ps') = [(p, 1)] :: onePredHist ps' := by
      simp [onePredHist]
    rw [hmap, bayesian_cons, if_neg hw, if_pos rfl]
    have hfold : List.foldlM bayesFullStep
        (([Real.log 1], []) : List ℝ × List ℝ)
        ([(p, 1)] :: onePredHist ps') =
        some ([Real.log 1 + (p :: ps').sum], [] ++ (p :: ps')) := by
      have := bayesFull_fold_one (p :: ps') (Real.log 1) []
      simpa [onePredHist] using this
    simp only [List.map_cons, List.map_nil, hfold]
    simp

theorem bayesian_inc_onePred (w p : ℝ) (done : List ℝ) (hd : done ≠ [])
    (hw : w ≠ NEG_INF) :
    breakdown2score_bayesian w (onePredHist (done ++ [p])) false =
      some (w, onePredHist (done ++ [p])) := by
  rcases done with _ | ⟨d, ds⟩
  · exact absurd rfl hd
  · have hone : onePredHist ((d :: ds) ++ [p]) =
        onePredHist (d :: ds) ++ [[(p, 1)]] := by
      simp [onePredHist]
    have hlen : 2 ≤ (onePredHist ((d :: ds) ++ [p])).length := by
      simp [onePredHist]
    rw [bayesian_inc_eq_bayesInc _ _ hlen hw, hone,
      bayesInc_concat w _ _ (by simp [onePredHist])]
    have hh : (onePredHist (d :: ds)).headI = [(d, 1)] := by
      simp [onePredHist]
    rw [hh]
    have hfold : List.foldlM updateAlphas
        ((([((d : ℝ), (1 : ℝ))].map fun pr => pr.2).map Real.log))
        (onePredHist (d :: ds)) = some [Real.log 1 + (d :: ds).sum] := by
      have := upd_fold_one (d :: ds) (Real.log 1)
      simpa using this
    simp only [hfold]
    rw [if_pos (by simp)]
    simp only [List.map_cons, List.map_nil, List.zipWith_cons_cons,
      List.zipWith_nil_right, List.zipWith_nil_left, log_sum_singleton,
      List.sum_cons, List.sum_nil, sub_self, Real.exp_zero,
      Option.some.injEq, Prod.mk.injEq]
    refine ⟨by ring, by trivial⟩

theorem incChainGo_nil (w : ℝ) (done : Breakdown) :
    incChainGo w done [] = some (w, done) := rfl

theorem incChainGo_onePred (rest : List ℝ) :
    ∀ done : List ℝ, done ≠ [] →
      (∀ t, 0 < t → t ≤ (done ++ rest).length →
        ((done ++ rest).take t).sum ≠ NEG_INF) →
      incChainGo done.sum (onePredHist done) (onePredHist rest) =
        some ((done ++ rest).sum, onePredHist (done ++ rest)) := by
  induction rest with
  | nil =>
    intro done hd hg
    rw [show onePredHist [] = ([] : Breakdown) from rfl, incChainGo_nil]
    simp
  | cons p rest' ih =>
    intro done hd hg
    have hmap : onePredHist (p :: rest') = [(p, 1)] :: onePredHist rest' := by
      simp [onePredHist]
    rw [hmap, incChainGo_cons]
    have hcur : onePredHist done ++ [[(p, 1)]] = onePredHist (done ++ [p]) := by
      simp [onePredHist]
    rw [hcur]
    rcases done with _ | ⟨d, ds⟩
    · exact absurd rfl hd
    · have hhead : (onePredHist ((d :: ds) ++ [p])).headI = [(d, 1)] := by
        simp [onePredHist]
      rw [hhead]
      have hWval : (d :: ds).sum + (List.zipWith (fun q pr => q * pr.1)
          (([((d : ℝ), (1 : ℝ))] : Step).map fun pr => pr.2)
          ([(p, 1)] : Step)).sum =
          ((d :: ds) ++ [p]).sum := by
        simp [List.sum_append]
        ring
      rw [hWval]
      have hWne : ((d :: ds) ++ [p]).sum ≠ NEG_INF := by
        have htake := hg (ds.length + 2) (by omega) (by simp)
        have he : (((d :: ds) ++ (p :: rest')).take (ds.length + 2)) =
            (d :: ds) ++ [p] := by
          rw [List.take_append_eq_append_take]
          rw [List.take_of_length_le (by simp)]
          congr 1
          rw [show ds.length + 2 - (d :: ds).length = 1 by simp]
          rfl
        rw [he] at htake
        exact htake
      simp only [bayesian_inc_onePred _ p (d :: ds) (by simp) hWne]
      have harg : ∀ t, 0 < t → t ≤ (((d :: ds) ++ [p]) ++ rest').length →
          ((((d :: ds) ++ [p]) ++ rest').take t).sum ≠ NEG_INF := by
        intro t ht1 ht2
        rw [List.append_assoc, List.singleton_append]
        rw [List.append_assoc, List.singleton_append] at ht2
        exact hg t ht1 ht2
      have := ih ((d :: ds) ++ [p]) (by simp) harg
      rw [this]
      simp [List.append_assoc]

/-! ### C1: full mode versus the chained incremental mode -/

/-- C1 counterexample: on the one-step, two-predictor history with priors
`(1/2, 1/2)` and log-probabilities `(0, log (1/4))`, the full mode returns
`log (17/20)` while the chained incremental protocol returns `log (5/8)`;
the two differ by `log (34/25) > 10⁻⁹`, far beyond the claimed tolerance. -/
theorem c1_counterexample :
    breakdown2score_bayesian 0 [[(0, 1 / 2), (Real.log (1 / 4), 1 / 2)]]
        true =
      some (Real.log (17 / 20),
        [[(0, 1 / 2), (Real.log (1 / 4), 1 / 2)]]) ∧
    incChain [[(0, 1 / 2), (Real.log (1 / 4), 1 / 2)]] =
      some (Real.log (5 / 8), [[(0, 1 / 2), (Real.log (1 / 4), 1 / 2)]]) ∧
    |Real.log (17 / 20) - Real.log (5 / 8)| > 1e-9 := by
  have hlog14 : Real.log ((1 : ℝ) / 4) = -Real.log 4 := by
    rw [show (1 / 4 : ℝ) = (4 : ℝ)⁻¹ by norm_num, Real.log_inv]
  have hlog4 : Real.log (4 : ℝ) ≤ 3 := by
    have := Real.log_le_sub_one_of_pos (by norm_num : (0 : ℝ) < 4)
    linarith
  refine ⟨?_, ?_, ?_⟩
  · rw [bayesian_cons, if_neg (by norm_num [NEG_INF]), if_pos rfl]
    norm_num [bayesFullStep, updateAlphas, log_sum, List.foldlM_cons,
      List.foldlM_nil, Real.exp_add, Real.exp_sub, Real.exp_log]
  · unfold incChain
    rw [incChainGo_cons]
    simp only [List.nil_append, List.headI_cons, List.map_cons, List.map_nil,
      List.zipWith_cons_cons, List.zipWith_nil_right, List.zipWith_nil_left,
      List.sum_cons, List.sum_nil]
    rw [show (0 : ℝ) + (1 / 2 * 0 + (1 / 2 * Real.log (1 / 4) + 0)) =
        Real.log (1 / 4) / 2 by ring]
    have hWne : Real.log ((1 : ℝ) / 4) / 2 ≠ NEG_INF := by
      have hlt : NEG_INF < Real.log ((1 : ℝ) / 4) / 2 := by
        simp only [NEG_INF, hlog14]
        have hbig : (-(2 ^ 64) : ℝ) < -(3 : ℝ) / 2 := by norm_num
        linarith
      exact (ne_of_lt hlt).symm
    rw [bayesian_inc_one _ _ hWne]
    have hval : log_sum (([((0 : ℝ), (1 : ℝ) / 2),
        (Real.log (1 / 4), 1 / 2)] : Step).map
          fun pr => Real.log pr.2 + pr.1) = Real.log (5 / 8) := by
      norm_num [log_sum, Real.exp_add, Real.exp_log]
    rw [hval]
    rfl
  · have hd : Real.log ((17 : ℝ) / 20) - Real.log ((5 : ℝ) / 8) =
        Real.log ((34 : ℝ) / 25) := by
      rw [← Real.log_div (by norm_num) (by norm_num)]
      norm_num
    have hpos : (0 : ℝ) < Real.log ((34 : ℝ) / 25) :=
      Real.log_pos (by norm_num)
    have hbound : (9 : ℝ) / 34 ≤ Real.log ((34 : ℝ) / 25) := by
      have hexp := Real.add_one_le_exp (-Real.log ((34 : ℝ) / 25))
      rw [Real.exp_neg, Real.exp_log (by norm_num : (0 : ℝ) < 34 / 25)] at hexp
      have : ((34 : ℝ) / 25)⁻¹ = 25 / 34 := by norm_num
      rw [this] at hexp
      linarith
    rw [hd, abs_of_pos hpos]
    have : (1e-9 : ℝ) < 9 / 34 := by norm_num
    linarith

/-- C1 amended: the prefix-consistency law fails in general (the full mode
weights each step with alphas that already include that step's evidence,
while the incremental path weights the last step with alphas that exclude
it — `c1_counterexample`); on single-predictor histories with prior weight
`1` the two modes do agree: both equal the plain sum of the
log-probabilities, provided no working score along the chain hits the
sentinel. -/
theorem c1_single_predictor_agreement (ps : List ℝ) (w : ℝ) (hne : ps ≠ [])
    (hw : w ≠ NEG_INF)
    (hg : ∀ t, 0 < t → t ≤ ps.length → (ps.take t).sum ≠ NEG_INF) :
    breakdown2score_bayesian w (onePredHist ps) true =
      some (ps.sum, onePredHist ps) ∧
    incChain (onePredHist ps) = some (ps.sum, onePredHist ps) := by
  refine ⟨bayesian_full_onePred w ps hne hw, ?_⟩
  rcases ps with _ | ⟨p, ps'⟩
  · exact absurd rfl hne
  · unfold incChain
    have hmap : onePredHist (p :: ps') = [(p, 1)] :: onePredHist ps' := by
      simp [onePredHist]
    rw [hmap, incChainGo_cons]
    simp only [List.nil_append, List.headI_cons, List.map_cons, List.map_nil,
      List.zipWith_cons_cons, List.zipWith_nil_right, List.zipWith_nil_left,
      List.sum_cons, List.sum_nil]
    rw [show (0 : ℝ) + (1 * p + 0) = p by ring]
    have hpne : p ≠ NEG_INF := by
      have := hg 1 one_pos (by simp)
      simpa using this
    have heval : breakdown2score_bayesian p [[(p, 1)]] false =
        some (p, [[(p, 1)]]) := by
      rw [bayesian_inc_one _ _ hpne]
      simp [log_sum_singleton]
    simp only [heval]
    have harg : ∀ t, 0 < t → t ≤ ([p] ++ ps').length →
        (([p] ++ ps').take t).sum ≠ NEG_INF := hg
    have := incChainGo_onePred ps' [p] (by simp) harg
    simp only [List.sum_cons, List.sum_nil, add_zero,
      List.singleton_append] at this
    rw [show (onePredHist [p] : Breakdown) = [[(p, 1)]] from rfl] at this
    rw [this, hmap]

/-- Witness for C1's amended theorem at the two-step history with
log-probabilities `1` and `2` and working score `0`. -/
theorem c1_single_predictor_agreement_witness :
    breakdown2score_bayesian 0 (onePredHist [1, 2]) true =
      some (([1, 2] : List ℝ).sum, onePredHist [1, 2]) ∧
    incChain (onePredHist [1, 2]) =
      some (([1, 2] : List ℝ).sum, onePredHist [1, 2]) :=
  c1_single_predictor_agreement [1, 2] 0 (by simp) (by norm_num [NEG_INF])
    (by
      intro t ht1 ht2
      simp at ht2
      interval_cases t
      · norm_num [NEG_INF]
      · norm_num [NEG_INF])

/-! ### C4: the rewritten weights of the last step -/

/-- C4 counterexample: an incremental call on a one-step history with working
score distinct from the sentinel leaves the breakdown untouched — the weight
fields of the (only) step are not overwritten and keep summing to `3/4`, not
`1`. -/
theorem c4_counterexample :
    breakdown2score_bayesian 5 [[(0, 1 / 2), (0, 1 / 4)]] false =
      some (Real.log (3 / 4), [[(0, 1 / 2), (0, 1 / 4)]]) ∧
    (([((0 : ℝ), (1 : ℝ) / 2), (0, 1 / 4)].map Prod.snd).sum ≠ 1) := by
  constructor
  · rw [bayesian_inc_one 5 _ (by norm_num [NEG_INF])]
    norm_num [log_sum, Real.exp_log]
  · norm_num

/-- C4 amended: after an incremental Bayesian-linear call on a well-formed
history of at least two steps (constant predictor count `K > 0`, working
score distinct from the sentinel), the returned breakdown replaces the last
step by the pairs `(log_prob, exp (alpha - log_sum alphas))`; the rewritten
weights sum to `1` exactly and the log-probabilities are preserved.  On
one-step histories the incremental path performs no overwrite
(`c4_counterexample`). -/
theorem c4_weights_sum_one (w : ℝ) (bd : Breakdown) (K : ℕ) (hK : 0 < K)
    (hne : bd ≠ []) (hwf : ∀ st ∈ bd, st.length = K) (hlen2 : 2 ≤ bd.length)
    (hw : w ≠ NEG_INF) :
    ∃ s alphas last,
      breakdown2score_bayesian w bd false = some (s, bd.dropLast ++ [last]) ∧
      last = List.zipWith (fun a pr => (pr.1, Real.exp (a - log_sum alphas)))
        alphas (bd.getLast hne) ∧
      last.map Prod.fst = (bd.getLast hne).map Prod.fst ∧
      (last.map Prod.snd).sum = 1 := by
  rcases bd with _ | ⟨s0, _ | ⟨s1, rest2⟩⟩
  · exact absurd rfl hne
  · simp at hlen2
  · have hdne : (s0 :: s1 :: rest2 : Breakdown).dropLast ≠ [] := by simp
    have hsp : (s0 :: s1 :: rest2 : Breakdown) =
        (s0 :: s1 :: rest2 : Breakdown).dropLast ++
          [(s0 :: s1 :: rest2 : Breakdown).getLast hne] :=
      (List.dropLast_append_getLast hne).symm
    have hheadI : (s0 :: s1 :: rest2 : Breakdown).dropLast.headI = s0 := by
      rw [List.dropLast_cons₂]
      rfl
    have hs0 : s0.length = K := hwf s0 (by simp)
    have hla : ∀ st ∈ (s0 :: s1 :: rest2 : Breakdown).dropLast,
        st.length ≤ (((s0 :: s1 :: rest2 : Breakdown).dropLast.headI.map
          fun pr => pr.2).map Real.log).length := by
      intro st hst
      have hmem : st ∈ (s0 :: s1 :: rest2 : Breakdown) :=
        (List.dropLast_sublist _).subset hst
      rw [hheadI]
      simp [hwf st hmem, hs0]
    obtain ⟨alphas, hfold, hlenA⟩ := foldlM_updateAlphas_ok _ _ hla
    have hAK : alphas.length = K := by
      rw [hlenA, hheadI]
      simp [hs0]
    have hlast : ((s0 :: s1 :: rest2 : Breakdown).getLast hne).length = K :=
      hwf _ (List.getLast_mem hne)
    have hcond : ((s0 :: s1 :: rest2 : Breakdown).getLast hne).length ≤
        alphas.length := by
      rw [hlast, hAK]
    have hAne : alphas ≠ [] := by
      intro hnil
      rw [hnil] at hAK
      simp at hAK
      omega
    have heval : breakdown2score_bayesian w (s0 :: s1 :: rest2) false =
        some (w - (List.zipWith (fun q pr => q * pr.1)
            ((s0 :: s1 :: rest2 : Breakdown).dropLast.headI.map fun pr => pr.2)
            ((s0 :: s1 :: rest2 : Breakdown).getLast hne)).sum +
          log_sum (List.zipWith (fun a pr => a - log_sum alphas + pr.1) alphas
            ((s0 :: s1 :: rest2 : Breakdown).getLast hne)),
          (s0 :: s1 :: rest2 : Breakdown).dropLast ++
            [List.zipWith (fun a pr => (pr.1, Real.exp (a - log_sum alphas)))
              alphas ((s0 :: s1 :: rest2 : Breakdown).getLast hne)]) := by
      rw [bayesian_inc_ge2 w s0 s1 rest2 hw]
      conv_lhs => rw [hsp]
      rw [bayesInc_concat w _ _ hdne]
      simp only [hfold]
      rw [if_pos hcond]
    refine ⟨_, alphas, _, heval, rfl, ?_, ?_⟩
    · exact zipWith_pair_fst _ _ _ hcond
    · rw [zipWith_pair_snd _ _ _ (by rw [hlast, hAK])]
      exact sum_exp_normalized alphas hAne

/-- Witness for C4's amended theorem at the two-step single-predictor
history `[[(0, 1)], [(0, 1)]]` with working score `3`. -/
theorem c4_weights_sum_one_witness :
    ∃ s alphas last,
      breakdown2score_bayesian 3 [[(0, 1)], [(0, 1)]] false =
        some (s, ([[(0, 1)], [(0, 1)]] : Breakdown).dropLast ++ [last]) ∧
      last = List.zipWith (fun a pr => (pr.1, Real.exp (a - log_sum alphas)))
        alphas (([[(0, 1)], [(0, 1)]] : Breakdown).getLast (by simp)) ∧
      last.map Prod.fst =
        (([[(0, 1)], [(0, 1)]] : Breakdown).getLast (by simp)).map Prod.fst ∧
      (last.map Prod.snd).sum = 1 :=
  c4_weights_sum_one 3 [[(0, 1)], [(0, 1)]] 1 (by norm_num) (by simp)
    (by
      intro st hst
      simp only [List.mem_cons, List.mem_singleton] at hst
      rcases hst with rfl | rfl | h
      · rfl
      · rfl
      · exact absurd h (List.not_mem_nil st))
    (by simp) (by norm_num [NEG_INF])

/-! ### C7: the sum scheme is the identity on the working score -/

/-- C7: `breakdown2score_sum` returns `working_score` unchanged for every
working score, every breakdown and both values of `full`, with no side effect
on the breakdown. -/
theorem c7_sum_identity (w : ℝ) (bd : Breakdown) (full : Bool) :
    breakdown2score_sum w bd full = (w, bd) := rfl

/-! ### C2: length normalization on an empty breakdown -/

/-- C2: on an empty breakdown `breakdown2score_length_norm` divides by zero
and raises `ZeroDivisionError` (embedded as `none`) for every working score
and both values of `full`; it does not return `0.0` as the spec's policy
demands. -/
theorem c2_length_norm_empty_raises (w : ℝ) (full : Bool) :
    breakdown2score_length_norm w [] full = none := rfl

/-! ### C9: short-circuit guards of the Bayesian linear scheme -/

/-- C9: `breakdown2score_bayesian` returns `working_score` unchanged, with no
computation and no mutation, whenever the breakdown is empty or the working
score equals the `NEG_INF` sentinel — in `full = True` mode as well; hence the
full mode's result also depends on the incoming working score, not on the
history alone. -/
theorem c9_bayesian_short_circuit :
    (∀ (bd : Breakdown) (full : Bool),
        breakdown2score_bayesian NEG_INF bd full = some (NEG_INF, bd)) ∧
    (∀ (w : ℝ) (full : Bool),
        breakdown2score_bayesian w [] full = some (w, [])) ∧
    breakdown2score_bayesian NEG_INF [[(0, 1)]] true ≠
      breakdown2score_bayesian 0 [[(0, 1)]] true := by
  refine ⟨bayesian_neg_inf, bayesian_nil, ?_⟩
  have hr : breakdown2score_bayesian 0 [[(0, 1)]] true =
      some (0, [[(0, 1)]]) := by
    norm_num [breakdown2score_bayesian, bayesFullStep, updateAlphas, log_sum,
      NEG_INF, List.foldlM_cons, List.foldlM_nil]
  rw [bayesian_neg_inf, hr]
  norm_num [NEG_INF]

/-! ### C6: length normalization formula on nonempty breakdowns -/

/-- C6: on every nonempty breakdown, `breakdown2score_length_norm` returns
the sum over the steps of the unweighted per-step sums of the raw
log-probabilities (the weight fields are ignored), divided by the number of
steps, for every working score and both values of `full`. -/
theorem c6_length_norm_formula (w : ℝ) (bd : Breakdown) (full : Bool)
    (h : bd ≠ []) :
    breakdown2score_length_norm w bd full =
      some ((bd.map fun s => (s.map Prod.fst).sum).sum / bd.length, bd) := by
  have hc : combi_arithmetic_unnormalized =
      fun s : Step => (s.map Prod.fst).sum := rfl
  cases bd with
  | nil => exact absurd rfl h
  | cons s0 rest => rw [length_norm_cons, hc]

/-- Witness for C6 at the one-step breakdown `[[(2, 5)]]`. -/
theorem c6_length_norm_formula_witness :
    breakdown2score_length_norm 7 [[(2, 5)]] false = some (2, [[(2, 5)]]) := by
  simpa using c6_length_norm_formula 7 [[(2, 5)]] false (by simp)

/-! ### C3: no validation of mismatched predictor counts -/

/-- A history whose first step has one predictor and whose second step has
two: the structural invariant of equal predictor counts is violated. -/
def mismatchHist : Breakdown :=
  [[(0, 1)], [(0, 1), (0, 1)]]

/-- C3 counterexample: on the mismatched history the sum and the
length-normalization schemes return ordinary results rather than raising a
validation error before any computation. -/
theorem c3_counterexample :
    breakdown2score_sum 7 mismatchHist false = (7, mismatchHist) ∧
    breakdown2score_length_norm 7 mismatchHist false =
      some (0, mismatchHist) := by
  constructor
  · rfl
  · simp only [mismatchHist]
    rw [length_norm_cons]
    norm_num [combi_arithmetic_unnormalized]

/-- C3 amended: none of the four strategies validates the equal-predictor-
count invariant.  On the mismatched history, sum and length normalization
return ordinary results computed from the misaligned steps, while the two
Bayesian strategies fail with an `IndexError` in the middle of their
computation (embedded as `none`) rather than with an up-front validation
error. -/
theorem c3_no_validation (w : ℝ) (full : Bool) (hw : w ≠ NEG_INF) :
    breakdown2score_sum w mismatchHist full = (w, mismatchHist) ∧
    breakdown2score_length_norm w mismatchHist full =
      some (0, mismatchHist) ∧
    breakdown2score_bayesian w mismatchHist full = none ∧
    breakdown2score_bayesian_loglin w mismatchHist full = none := by
  refine ⟨rfl, ?_, ?_, ?_⟩
  · simp only [mismatchHist]
    rw [length_norm_cons]
    norm_num [combi_arithmetic_unnormalized]
  · cases full with
    | true =>
      norm_num [breakdown2score_bayesian, mismatchHist, hw, bayesFullStep,
        updateAlphas, List.foldlM_cons, List.foldlM_nil]
    | false =>
      norm_num [breakdown2score_bayesian, mismatchHist, hw, bayesInc,
        updateAlphas, List.foldlM_cons, List.foldlM_nil]
  · norm_num [breakdown2score_bayesian_loglin, mismatchHist, loglinStep,
      List.foldlM_cons, List.foldlM_nil]

/-- Witness for C3's amended theorem at working score `7`. -/
theorem c3_no_validation_witness :
    breakdown2score_sum 7 mismatchHist true = (7, mismatchHist) ∧
    breakdown2score_length_norm 7 mismatchHist true =
      some (0, mismatchHist) ∧
    breakdown2score_bayesian 7 mismatchHist true = none ∧
    breakdown2score_bayesian_loglin 7 mismatchHist true = none :=
  c3_no_validation 7 true (by norm_num [NEG_INF])

/-! ### C8: log-linear scheme with a single predictor -/

/-- The log-linear fold over a single-predictor history adds the
log-probabilities to the lone alpha and accumulates exactly the raw
log-probabilities, whatever the seed alpha is: per step, the contribution
`log_sum [p + (a + p)] - log_sum [a + p]` collapses to `p`. -/
theorem loglin_fold_one (ps : List (ℝ × ℝ)) :
    ∀ (a : ℝ) (acc : List ℝ),
      (ps.map fun pr => [pr]).foldlM loglinStep ([a], acc) =
        some ([a + (ps.map Prod.fst).sum], acc ++ ps.map Prod.fst) := by
  induction ps with
  | nil => intro a acc; simp
  | cons pr ps ih =>
    intro a acc
    have e : pr.1 + (a + pr.1) - (a + pr.1) = pr.1 := by ring
    simp only [List.map_cons, List.foldlM_cons, loglinStep, List.length_cons,
      List.length_nil, List.length_singleton, le_refl, if_true,
      List.zipWith_cons_cons, List.zipWith_nil_right, List.zipWith_nil_left,
      log_sum_singleton, e]
    simp only [Option.bind_eq_bind, Option.some_bind]
    rw [ih (a + pr.1) (acc ++ [pr.1])]
    simp [add_assoc]

/-- C8: on every nonempty single-predictor history, the log-linear scheme
returns the plain sum of that predictor's raw log-probabilities across the
steps, for every working score, every prior weight, and both values of
`full`. -/
theorem c8_loglin_single_predictor (w : ℝ) (full : Bool)
    (steps : List (ℝ × ℝ)) (h : steps ≠ []) :
    breakdown2score_bayesian_loglin w (steps.map fun pr => [pr]) full =
      some ((steps.map Prod.fst).sum, steps.map fun pr => [pr]) := by
  cases steps with
  | nil => exact absurd rfl h
  | cons pr ps =>
    have hfold := loglin_fold_one (pr :: ps) (Real.log pr.2) []
    simp only [List.map_cons] at hfold ⊢
    simp only [breakdown2score_bayesian_loglin, List.map_cons, List.map_nil]
    rw [hfold]
    simp

/-- Witness for C8 at the single step `(5, 2)`. -/
theorem c8_loglin_single_predictor_witness :
    breakdown2score_bayesian_loglin 3 [[(5, 2)]] false =
      some (5, [[(5, 2)]]) := by
  simpa using c8_loglin_single_predictor 3 false [(5, 2)] (by simp)

/-! ### C10: log-linear scheme on an empty breakdown -/

/-- C10: `breakdown2score_bayesian_loglin` returns `working_score` unchanged
on the empty breakdown for every working score and both values of `full`, and
on a nonempty breakdown its result does not depend on the working score or on
`full` at all. -/
theorem c10_loglin_empty_and_ignores_working_score :
    (∀ (w : ℝ) (full : Bool),
        breakdown2score_bayesian_loglin w [] full = some (w, [])) ∧
    (∀ (w₁ w₂ : ℝ) (f₁ f₂ : Bool) (s0 : Step) (rest : Breakdown),
        breakdown2score_bayesian_loglin w₁ (s0 :: rest) f₁ =
          breakdown2score_bayesian_loglin w₂ (s0 :: rest) f₂) := by
  constructor
  · intro w full
    rfl
  · intro w₁ w₂ f₁ f₂ s0 rest
    rfl
